import Mathlib

/-
Verification of the filename parsing and placement pipeline of
src/movie-rename.py against its specification.

Strings are modelled as lists of characters.  The model is ASCII-faithful:
Python's regular-expression character classes, case mapping (str.title,
str.lower) and whitespace handling are interpreted over ASCII, which covers
every string the program manipulates.  pathlib operations (stem, suffix,
with_suffix, name) are modelled on already-normalised POSIX path strings
(no repeated or trailing slashes), which is what pathlib's own
stringification produces.
-/

set_option maxHeartbeats 1000000

namespace MovieRename

/-- Filenames and paths as lists of characters. -/
abbrev Str := List Char

/-- Bracket characters removed by the first substitution in
extract_title_and_year, regex class [\[\]\(\)\{\}]. -/
def isBracket (c : Char) : Bool :=
  c == '[' || c == ']' || c == '(' || c == ')' || c == '{' || c == '}'

/-- Separator characters removed by the second substitution, regex class [._-]. -/
def isSep (c : Char) : Bool :=
  c == '.' || c == '_' || c == '-'

/-- Python regex whitespace class \s (ASCII part). -/
def pyIsSpace (c : Char) : Bool :=
  c == ' ' || c == '\t' || c == '\n' || c == '\r' || c == '\x0b' || c == '\x0c'

/-- Replace every maximal run of characters satisfying p by one space, as
re.sub with pattern "[class]+" and replacement " " does.  The Boolean
argument records whether the previous character belonged to the class. -/
def subRunsAux (p : Char → Bool) : Bool → Str → Str
  | _, [] => []
  | inRun, c :: rest =>
    if p c then
      if inRun then subRunsAux p true rest
      else ' ' :: subRunsAux p true rest
    else c :: subRunsAux p false rest

/-- re.sub replacing maximal runs of the class p by a single space. -/
def subRuns (p : Char → Bool) (s : Str) : Str := subRunsAux p false s

/-- re.sub collapsing whitespace runs to a single space. -/
def collapseWS (s : Str) : Str := subRuns pyIsSpace s

/-- str.strip with no arguments: remove leading and trailing whitespace. -/
def pyStrip (s : Str) : Str :=
  ((s.dropWhile pyIsSpace).reverse.dropWhile pyIsSpace).reverse

/-- str.title (ASCII model): a letter that follows a letter is lowercased,
any other letter is uppercased; non-letters pass through unchanged and reset
the word state.  The Boolean argument records whether the previous character
was a cased character. -/
def pyTitleAux : Bool → Str → Str
  | _, [] => []
  | prevCased, c :: rest =>
    if c.isAlpha then
      (if prevCased then c.toLower else c.toUpper) :: pyTitleAux true rest
    else c :: pyTitleAux false rest

/-- str.title on a whole string. -/
def pyTitle (s : Str) : Str := pyTitleAux false s

/-- str.lower (ASCII model). -/
def strToLower (s : Str) : Str := s.map Char.toLower

/-- Final path component: PurePath.name on a normalised path string is
everything after the last '/'. -/
def pyName (p : Str) : Str := (p.reverse.takeWhile (fun c => c != '/')).reverse

/-- Directory prefix left of the final component, including its trailing
'/'; empty for a bare name. -/
def pyDirPart (p : Str) : Str := (p.reverse.dropWhile (fun c => c != '/')).reverse

/-- Split a reversed name at its first '.', which is the last '.' of the
name: returns the reversed text after that dot and the reversed text before
it. -/
def splitExtRev : Str → Option (Str × Str)
  | [] => none
  | c :: rest =>
    if c = '.' then some ([], rest)
    else (splitExtRev rest).map (fun x => (c :: x.1, x.2))

/-- PurePath.stem and PurePath.suffix of the final component, computed
together.  CPython takes i = name.rfind('.') and uses (name[:i], name[i:])
when 0 < i < len(name) - 1, and (name, '') otherwise, so a leading or
trailing dot yields an empty suffix. -/
def pySplitName (p : Str) : Str × Str :=
  match splitExtRev (pyName p).reverse with
  | some (afterRev, beforeRev) =>
    if beforeRev = [] ∨ afterRev = [] then (pyName p, [])
    else (beforeRev.reverse, '.' :: afterRev.reverse)
  | none => (pyName p, [])

/-- PurePath.stem. -/
def pyStem (p : Str) : Str := (pySplitName p).1

/-- PurePath.suffix. -/
def pySuffix (p : Str) : Str := (pySplitName p).2

/-- PurePath.with_suffix: raises ValueError (modelled as none) when the new
suffix contains the separator, is nonempty without starting with a dot, is
a bare dot, or the path has an empty name; otherwise strips the old suffix
of the final component and appends the new one, keeping the directory
prefix. -/
def pyWithSuffix (p : Str) (sfx : Str) : Option Str :=
  if '/' ∈ sfx then none
  else if (sfx ≠ [] ∧ sfx.head? ≠ some '.') ∨ sfx = ['.'] then none
  else if pyName p = [] then none
  else if pySuffix p = [] then some (pyDirPart p ++ pyName p ++ sfx)
  else some (pyDirPart p ++ pyStem p ++ sfx)

/-- YEAR_PATTERN, regex (19|20)\d{2}, tested at the head of a string. -/
def yearHead : Str → Bool
  | a :: b :: c :: d :: _ =>
    ((a == '1' && b == '9') || (a == '2' && b == '0')) && c.isDigit && d.isDigit
  | _ => false

/-- re.search for YEAR_PATTERN: index of the leftmost position at which the
pattern matches. -/
def searchYear : Str → Option Nat
  | [] => none
  | c :: rest =>
    if yearHead (c :: rest) then some 0 else (searchYear rest).map (· + 1)

/-- Both normalisation substitutions of extract_title_and_year, in program
order: bracket runs become a space, then runs of '.', '_', '-' become a
space. -/
def normalizeName (stem : Str) : Str := subRuns isSep (subRuns isBracket stem)

/-- extract_title_and_year from src/movie-rename.py: strip the extension,
normalise bracket and separator runs to spaces, search for the leftmost
year match; the year is the matched text and the title is the text before
the match with whitespace collapsed, edges stripped and str.title applied. -/
def extract_title_and_year (filename : Str) : Str × Option Str :=
  let normalized := normalizeName (pyStem filename)
  match searchYear normalized with
  | some i =>
    (pyTitle (pyStrip (collapseWS (normalized.take i))),
      some ((normalized.drop i).take 4))
  | none => (pyTitle (pyStrip (collapseWS normalized)), none)

/-- A year match in the sense of the spec: at position i the normalised
string carries a four-digit substring whose first two characters are "19"
or "20". -/
def specYearMatchAt (s : Str) (i : Nat) : Prop :=
  ((s.drop i).take 4).length = 4
  ∧ (∀ c ∈ (s.drop i).take 4, c.isDigit = true)
  ∧ ((s.drop i).take 2 = ['1', '9'] ∨ (s.drop i).take 2 = ['2', '0'])

instance (s : Str) (i : Nat) : Decidable (specYearMatchAt s i) := by
  unfold specYearMatchAt
  infer_instance

/-- PurePath.parent as a string: the directory prefix without its trailing
slash, or "." for a bare name. -/
def pyParentDir (p : Str) : Str :=
  if pyDirPart p = [] then ".".toList else (pyDirPart p).dropLast

/-- Joining a child name onto a directory, as pathlib renders it: the "."
directory vanishes. -/
def pyJoin (d : Str) (n : Str) : Str :=
  if d = ".".toList then n else d ++ '/' :: n

/-- Abstract directory listing: the part of the file system seen by the
existence checks and globs of find_subtitle_files.  Each entry pairs an
existing directory path with the names of the entries inside it. -/
structure DirFS where
  dirs : List (Str × List Str)
deriving DecidableEq

/-- Existence check plus listing of one directory. -/
def lookupDir (fs : DirFS) (d : Str) : Option (List Str) :=
  (fs.dirs.find? (fun e => e.1 == d)).map (fun e => e.2)

/-- directory.glob of the pattern "*" followed by ext, with POSIX fnmatch
semantics: case sensitive, "*" matching any sequence of characters, so a
name matches exactly when it ends with ext (extensions are assumed free of
glob metacharacters).  Hits are returned joined onto the directory. -/
def globExt (fs : DirFS) (d : Str) (ext : Str) : List Str :=
  match lookupDir fs d with
  | none => []
  | some entries =>
    (entries.filter (fun name => ext.isSuffixOf name)).map (fun name => pyJoin d name)

/-- Left-to-right deduplication, modelling construction of the Python set
of lowercased extensions as its insertion-order list of distinct elements.
A Python set iterates in an unspecified order; every property proved below
is independent of that order. -/
def dedupAux : List Str → List Str → List Str
  | [], _ => []
  | x :: rest, seen =>
    if x ∈ seen then dedupAux rest seen else x :: dedupAux rest (x :: seen)

/-- normalized_exts of find_subtitle_files. -/
def normalizedExts (extensions : List Str) : List Str :=
  dedupAux (extensions.map strToLower) []

/-- The candidate_dirs list of find_subtitle_files: the movie's parent, its
Subs subdirectory, its Subtitles subdirectory, in that order. -/
def candidateDirs (movie_file : Str) : List Str :=
  [pyParentDir movie_file,
    pyJoin (pyParentDir movie_file) ("Subs".toList),
    pyJoin (pyParentDir movie_file) ("Subtitles".toList)]

/-- Innermost loop of find_subtitle_files: fold the glob hits of one
extension through the seen set (first component) and result list (second
component). -/
def addHits : List Str → List Str × List Str → List Str × List Str
  | [], acc => acc
  | h :: t, acc =>
    if h ∈ acc.1 then addHits t acc else addHits t (h :: acc.1, acc.2 ++ [h])

/-- Middle loop of find_subtitle_files: all extensions against one
directory. -/
def addDirExts (fs : DirFS) (d : Str) : List Str → List Str × List Str → List Str × List Str
  | [], acc => acc
  | ext :: t, acc => addDirExts fs d t (addHits (globExt fs d ext) acc)

/-- Outer loop of find_subtitle_files: each candidate directory is skipped
when it does not exist. -/
def addDirs (fs : DirFS) (exts : List Str) : List Str → List Str × List Str → List Str × List Str
  | [], acc => acc
  | d :: t, acc =>
    if (lookupDir fs d).isSome then addDirs fs exts t (addDirExts fs d exts acc)
    else addDirs fs exts t acc

/-- find_subtitle_files from src/movie-rename.py over the abstract
directory listing. -/
def find_subtitle_files (fs : DirFS) (movie_file : Str) (extensions : List Str) : List Str :=
  (addDirs fs (normalizedExts extensions) (candidateDirs movie_file) ([], [])).2

/-- One result from the external lookup collaborator: its display title and
its optional release-date field (none models a missing attribute). -/
structure MovieResult where
  title : Str
  release_date : Option Str
deriving DecidableEq

/-- Format template for config movie_format: literal text interleaved with
the placeholders n (title) and y (year). -/
inductive Seg
  | lit : Str → Seg
  | n : Seg
  | y : Seg

/-- A movie_format value. -/
abbrev Template := List Seg

/-- str.format of the template against a title and a year. -/
def applyTemplate (t : Template) (title year : Str) : Str :=
  match t with
  | [] => []
  | Seg.lit s :: rest => s ++ applyTemplate rest title year
  | Seg.n :: rest => title ++ applyTemplate rest title year
  | Seg.y :: rest => year ++ applyTemplate rest title year

/-- Mutable file state: the set of existing regular-file paths.  Directory
creation is tracked through the operation trace only. -/
structure FS where
  files : List Str
deriving DecidableEq

/-- shutil.copy2 and os.rename create the destination path. -/
def FS.addFile (fs : FS) (p : Str) : FS :=
  ⟨if p ∈ fs.files then fs.files else fs.files ++ [p]⟩

/-- A successful rename removes the origin path. -/
def FS.removeFile (fs : FS) (p : Str) : FS :=
  ⟨fs.files.filter (fun q => q != p)⟩

/-- Filesystem mutations issued by the placement code, in program order. -/
inductive FsOp
  | mkdirParents : Str → FsOp
  | copyFile : Str → Str → FsOp
  | moveFile : Str → Str → FsOp
deriving DecidableEq

/-- Console reports: one constructor per print statement of the per-file
loop in main. -/
inductive Msg
  | searching : Str → Option Str → Msg
  | found : Str → Str → Msg
  | newFilename : Str → Msg
  | subtitlesFound : List Str → Msg
  | copied : Str → Msg
  | sourceMissingCopy : Msg
  | copiedSub : Str → Msg
  | subMissingCopy : Str → Msg
  | moved : Str → Msg
  | sourceMissingMove : Msg
  | movedSub : Str → Msg
  | subMissingMove : Str → Msg
  | testWouldWrite : Str → Msg
  | testWouldWriteSub : Str → Msg
  | noResults : Msg
deriving DecidableEq

/-- State threaded through a per-subtitle loop and out of the action
dispatch: file state, mutation trace, reports, and whether an uncaught
exception ended the run. -/
structure SubsState where
  fs : FS
  ops : List FsOp
  printed : List Msg
  crashed : Bool
deriving DecidableEq

/-- Literal marker for a missing year. -/
def unknownStr : Str := "unknown".toList

/-- The action value of the copy branch. -/
def copyAction : Str := "copy".toList

/-- The action value of the move branch. -/
def moveAction : Str := "move".toList

/-- The action value of the dry-run branch. -/
def testAction : Str := "test".toList

/-- Subtitle loop of the copy branch: each subtitle that still exists is
copied to the movie destination's stem with its own suffix.  copy2 onto
the identical path raises SameFileError, which main does not catch. -/
def copySubs (destination : Str) : List Str → SubsState → SubsState
  | [], st => st
  | sub :: rest, st =>
    match pyWithSuffix destination (pySuffix sub) with
    | none => ⟨st.fs, st.ops, st.printed, true⟩
    | some sd =>
      if sub ∈ st.fs.files then
        if sub = sd then ⟨st.fs, st.ops, st.printed, true⟩
        else
          copySubs destination rest
            ⟨st.fs.addFile sd, st.ops ++ [FsOp.copyFile sub sd],
              st.printed ++ [Msg.copiedSub sd], false⟩
      else copySubs destination rest ⟨st.fs, st.ops, st.printed ++ [Msg.subMissingCopy sub], false⟩

/-- Subtitle loop of the move branch.  os.rename of a path onto itself
succeeds and changes nothing (POSIX), so shutil.move onto the identical
path leaves the file in place. -/
def moveSubs (destination : Str) : List Str → SubsState → SubsState
  | [], st => st
  | sub :: rest, st =>
    match pyWithSuffix destination (pySuffix sub) with
    | none => ⟨st.fs, st.ops, st.printed, true⟩
    | some sd =>
      if sub ∈ st.fs.files then
        moveSubs destination rest
          ⟨(if sub = sd then st.fs else (st.fs.removeFile sub).addFile sd),
            st.ops ++ [FsOp.moveFile sub sd],
            st.printed ++ [Msg.movedSub sd], false⟩
      else moveSubs destination rest ⟨st.fs, st.ops, st.printed ++ [Msg.subMissingMove sub], false⟩

/-- Subtitle loop of the test branch: reporting only. -/
def testSubs (destination : Str) : List Str → SubsState → SubsState
  | [], st => st
  | sub :: rest, st =>
    match pyWithSuffix destination (pySuffix sub) with
    | none => ⟨st.fs, st.ops, st.printed, true⟩
    | some sd => testSubs destination rest ⟨st.fs, st.ops, st.printed ++ [Msg.testWouldWriteSub sd], false⟩

/-- resolved_year of main, line 126: the parsed year when present,
otherwise the first four characters of the first result's release-date
when that attribute is present and truthy (non-empty), otherwise the
literal "unknown". -/
def resolved_year_of (year : Option Str) (m : MovieResult) : Str :=
  match year with
  | some yr => yr
  | none =>
    match m.release_date with
    | some rd => if rd = [] then unknownStr else rd.take 4
    | none => unknownStr

/-- Modelled from the spec sentence behind C5, written from its words:
the candidate's parsed year if present; otherwise the first 4 characters
of the selected result's release-date field if that field is present and
non-empty; otherwise the literal marker "unknown". -/
def specResolveYear (parsedYear : Option Str) (release_date : Option Str) : Str :=
  match parsedYear with
  | some yr => yr
  | none =>
    match release_date with
    | some rd => if rd ≠ [] then rd.take 4 else unknownStr
    | none => unknownStr

/-- Action dispatch of main, lines 139-174, for one movie file whose
destination has been computed: copy and move create the destination parent
directory, check that each source still exists, and place the movie and
then each subtitle; test only reports; every other action value does
nothing. -/
def placeFiles (action : Str) (movie_file destination : Str) (subtitle_files : List Str)
    (fs : FS) (printed : List Msg) : SubsState :=
  if action = copyAction then
    if movie_file ∈ fs.files then
      if movie_file = destination then
        ⟨fs, [FsOp.mkdirParents destination], printed, true⟩
      else
        copySubs destination subtitle_files
          ⟨fs.addFile destination,
            [FsOp.mkdirParents destination, FsOp.copyFile movie_file destination],
            printed ++ [Msg.copied destination], false⟩
    else
      copySubs destination subtitle_files
        ⟨fs, [FsOp.mkdirParents destination], printed ++ [Msg.sourceMissingCopy], false⟩
  else if action = moveAction then
    if movie_file ∈ fs.files then
      moveSubs destination subtitle_files
        ⟨(if movie_file = destination then fs else (fs.removeFile movie_file).addFile destination),
          [FsOp.mkdirParents destination, FsOp.moveFile movie_file destination],
          printed ++ [Msg.moved destination], false⟩
    else
      moveSubs destination subtitle_files
        ⟨fs, [FsOp.mkdirParents destination], printed ++ [Msg.sourceMissingMove], false⟩
  else if action = testAction then
    testSubs destination subtitle_files
      ⟨fs, [], printed ++ [Msg.testWouldWrite destination], false⟩
  else ⟨fs, [], printed, false⟩

/-- Everything observable about the processing of one movie file by the
loop body of main, lines 120-174. -/
structure Outcome where
  fs : FS
  ops : List FsOp
  printed : List Msg
  selected : Option MovieResult
  resolvedYear : Option Str
  base : Option Str
  destination : Option Str
  crashed : Bool
deriving DecidableEq

/-- Loop body of main for one movie file.  movies is the collaborator's
result list for the parsed title and year; subtitle_files is the
find_subtitle_files result, empty when subtitles are disabled. -/
def processMovieFile (fmt : Template) (action : Str) (movies : List MovieResult)
    (movie_file : Str) (subtitle_files : List Str) (fs : FS) : Outcome :=
  let parsed := extract_title_and_year (pyName movie_file)
  let original_ext := pySuffix movie_file
  let searching := [Msg.searching parsed.1 parsed.2]
  match movies with
  | [] => ⟨fs, [], searching ++ [Msg.noResults], none, none, none, none, false⟩
  | m :: _ =>
    let resolved_year := resolved_year_of parsed.2 m
    let base := applyTemplate fmt m.title resolved_year
    match pyWithSuffix base original_ext with
    | none => ⟨fs, [], searching, some m, some resolved_year, some base, none, true⟩
    | some destination =>
      let printed := searching
        ++ [Msg.found m.title resolved_year, Msg.newFilename destination]
        ++ (if subtitle_files = [] then [] else [Msg.subtitlesFound subtitle_files])
      let st := placeFiles action movie_file destination subtitle_files fs printed
      ⟨st.fs, st.ops, st.printed, some m, some resolved_year, some base, some destination, st.crashed⟩

/-- One unit of per-file work: the movie path, the collaborator's results
for it, and its discovered subtitles. -/
structure FileJob where
  movie_file : Str
  movies : List MovieResult
  subtitle_files : List Str

/-- The whole per-file loop of main: files are processed in order, each
against the file state the previous one left behind; an uncaught exception
aborts the remainder of the run. -/
def processAll (fmt : Template) (action : Str) : List FileJob → FS → List Outcome
  | [], _ => []
  | job :: rest, fs =>
    let o := processMovieFile fmt action job.movies job.movie_file job.subtitle_files fs
    if o.crashed then [o] else o :: processAll fmt action rest o.fs

/-- Concrete template rendering "Title (Year)", the movie_format of
config.yml.sample. -/
def fmtW : Template := [Seg.n, Seg.lit (" (".toList), Seg.y, Seg.lit (")".toList)]

/-- Concrete lookup answer used by witnesses. -/
def moviesW : List MovieResult := [⟨"The Matrix".toList, some ("1999-03-31".toList)⟩]

/-- Concrete file state for the C9 witness. -/
def fsW : FS := ⟨["m.mp4".toList, "s.srt".toList]⟩

/-- Movie path for the C8 witness: a release-named source whose computed
destination differs from it. -/
def mfW8 : Str := "Old.Name.1999.mp4".toList

/-- File state for the C8 witness. -/
def fsW8 : FS := ⟨[mfW8]⟩

/-- Movie path for the C8 counterexample: a file already carrying its
canonical name, so the computed destination equals the source. -/
def mfC8 : Str := "The Matrix (1999).mp4".toList

/-- File state for the C8 counterexample. -/
def fsC8 : FS := ⟨[mfC8]⟩

/-- Directory listing for the C6 scenario: the parent d holds a.srt, and
d/Subs is a symlink back to d, so it lists the same a.srt under a second
path. -/
def fsC6 : DirFS :=
  ⟨[("d".toList, ["m.mp4".toList, "a.srt".toList]),
    ("d/Subs".toList, ["a.srt".toList])]⟩

/-- Symlink resolution map of the C6 scenario: both discovered paths
resolve to the same file d/a.srt. -/
def resolveC6 (p : Str) : Str :=
  if p = "d/Subs/a.srt".toList then "d/a.srt".toList else p

/-- Directory listing for the C7 scenario: the parent d holds a subtitle
whose extension differs from the configured ".srt" only in case. -/
def fsC7 : DirFS := ⟨[("d".toList, ["m.mkv".toList, "a.SRT".toList])]⟩

lemma yearHead_iff (l : Str) :
    yearHead l = true ↔
      ((l.take 4).length = 4 ∧ (∀ c ∈ l.take 4, c.isDigit = true)
        ∧ (l.take 2 = ['1', '9'] ∨ l.take 2 = ['2', '0'])) := by
  match l with
  | [] => simp [yearHead]
  | [a] =>
    apply iff_of_false (by simp [yearHead])
    rintro ⟨h1, -, -⟩
    have e : ([a].take 4).length = 1 := rfl
    rw [e] at h1
    exact absurd h1 (by decide)
  | [a, b] =>
    apply iff_of_false (by simp [yearHead])
    rintro ⟨h1, -, -⟩
    have e : ([a, b].take 4).length = 2 := rfl
    rw [e] at h1
    exact absurd h1 (by decide)
  | [a, b, c] =>
    apply iff_of_false (by simp [yearHead])
    rintro ⟨h1, -, -⟩
    have e : ([a, b, c].take 4).length = 3 := rfl
    rw [e] at h1
    exact absurd h1 (by decide)
  | a :: b :: c :: d :: t =>
    have h4 : ((a :: b :: c :: d :: t).take 4) = [a, b, c, d] := rfl
    have h2 : ((a :: b :: c :: d :: t).take 2) = [a, b] := rfl
    rw [h4, h2]
    constructor
    · intro h
      simp only [yearHead, Bool.and_eq_true, Bool.or_eq_true, beq_iff_eq] at h
      obtain ⟨⟨h12, hc⟩, hd⟩ := h
      refine ⟨rfl, ?_, ?_⟩
      · intro x hx
        simp only [List.mem_cons, List.not_mem_nil, or_false] at hx
        rcases h12 with ⟨ha, hb⟩ | ⟨ha, hb⟩ <;> subst ha <;> subst hb <;>
          rcases hx with rfl | rfl | rfl | rfl
        · decide
        · decide
        · exact hc
        · exact hd
        · decide
        · decide
        · exact hc
        · exact hd
      · rcases h12 with ⟨ha, hb⟩ | ⟨ha, hb⟩ <;> subst ha <;> subst hb
        · exact Or.inl rfl
        · exact Or.inr rfl
    · rintro ⟨-, hdig, h12⟩
      simp only [yearHead, Bool.and_eq_true, Bool.or_eq_true, beq_iff_eq]
      refine ⟨⟨?_, hdig c (by simp)⟩, hdig d (by simp)⟩
      rcases h12 with h | h <;>
        simp only [List.cons.injEq, and_true] at h
      · exact Or.inl h
      · exact Or.inr h

/-- re.search finds the leftmost match: if the pattern matches at i and at
no earlier index, searchYear returns i. -/
lemma searchYear_complete (s : Str) (i : Nat)
    (hmatch : yearHead (s.drop i) = true)
    (hmin : ∀ j, j < i → yearHead (s.drop j) = false) :
    searchYear s = some i := by
  induction s generalizing i with
  | nil => rw [List.drop_nil] at hmatch; exact absurd hmatch (by simp [yearHead])
  | cons c rest ih =>
    cases i with
    | zero =>
      rw [List.drop_zero] at hmatch
      simp [searchYear, hmatch]
    | succ i' =>
      have h0 : yearHead (c :: rest) = false := by
        have h := hmin 0 (Nat.succ_pos i')
        simpa using h
      have hm : yearHead (rest.drop i') = true := by
        simpa [List.drop_succ_cons] using hmatch
      have hmin' : ∀ j, j < i' → yearHead (rest.drop j) = false := by
        intro j hj
        have h := hmin (j + 1) (Nat.succ_lt_succ hj)
        simpa [List.drop_succ_cons] using h
      simp [searchYear, h0, ih i' hm hmin']

/-- C1: for every input filename whose normalised stem (extension
stripped, bracket runs and runs of '.', '_', '-' replaced by single
spaces) contains a 4-digit substring beginning with "19" or "20",
extract_title_and_year returns exactly the leftmost such match as the
year, and as title the text before that match with whitespace collapsed,
edges trimmed, and title-casing applied. -/
theorem c1_parse_leftmost_year (filename : Str) (i : Nat)
    (hmatch : specYearMatchAt (normalizeName (pyStem filename)) i)
    (hleft : ∀ j, j < i → ¬ specYearMatchAt (normalizeName (pyStem filename)) j) :
    extract_title_and_year filename =
      (pyTitle (pyStrip (collapseWS ((normalizeName (pyStem filename)).take i))),
        some (((normalizeName (pyStem filename)).drop i).take 4)) := by
  have hs : searchYear (normalizeName (pyStem filename)) = some i := by
    apply searchYear_complete
    · exact (yearHead_iff _).mpr hmatch
    · intro j hj
      cases hyh : yearHead ((normalizeName (pyStem filename)).drop j) with
      | false => rfl
      | true => exact absurd ((yearHead_iff _).mp hyh) (hleft j hj)
  simp [extract_title_and_year, hs]

/-- Witness for C1 at the first sample filename, whose normalised stem has
its leftmost year match at index 11. -/
theorem c1_parse_leftmost_year_witness :
    specYearMatchAt
        (normalizeName (pyStem ("The.Matrix.1999.1080p.BluRay.x264.YIFY.mp4".toList))) 11
    ∧ (∀ j, j < 11 → ¬ specYearMatchAt
        (normalizeName (pyStem ("The.Matrix.1999.1080p.BluRay.x264.YIFY.mp4".toList))) j)
    ∧ extract_title_and_year ("The.Matrix.1999.1080p.BluRay.x264.YIFY.mp4".toList) =
        (pyTitle (pyStrip (collapseWS
            ((normalizeName (pyStem ("The.Matrix.1999.1080p.BluRay.x264.YIFY.mp4".toList))).take 11))),
          some (((normalizeName (pyStem ("The.Matrix.1999.1080p.BluRay.x264.YIFY.mp4".toList))).drop 11).take 4)) :=
  ⟨by decide, by decide,
    c1_parse_leftmost_year ("The.Matrix.1999.1080p.BluRay.x264.YIFY.mp4".toList) 11
      (by decide) (by decide)⟩

/-- C2: parse applied to the three concrete inputs gives exactly the
stated results: the first yields title "The Matrix" and year "1999", the
second yields "Avatar" and "2009", and the third yields no year and title
"Noyearhere". -/
theorem c2_parse_examples :
    extract_title_and_year ("The.Matrix.1999.1080p.BluRay.x264.YIFY.mp4".toList)
        = ("The Matrix".toList, some ("1999".toList))
    ∧ extract_title_and_year ("Avatar-2009-EXTENDED-1080p-BluRay-x264.mp4".toList)
        = ("Avatar".toList, some ("2009".toList))
    ∧ extract_title_and_year ("NoYearHere.mp4".toList)
        = ("Noyearhere".toList, none) := by
  refine ⟨by decide, by decide, by decide⟩

lemma mem_takeWhile_pred {p : Char → Bool} {l : Str} {a : Char}
    (h : a ∈ l.takeWhile p) : p a = true := by
  induction l with
  | nil => cases h
  | cons c t ih =>
    by_cases hc : p c = true
    · rw [List.takeWhile_cons, if_pos hc] at h
      rcases List.mem_cons.mp h with rfl | h'
      · exact hc
      · exact ih h'
    · rw [List.takeWhile_cons, if_neg hc] at h
      cases h

lemma takeWhile_all {p : Char → Bool} {l : Str}
    (h : ∀ c ∈ l, p c = true) : l.takeWhile p = l := by
  induction l with
  | nil => rfl
  | cons c t ih =>
    rw [List.takeWhile_cons, if_pos (h c (by simp))]
    rw [ih (fun x hx => h x (by simp [hx]))]

lemma dropWhile_all {p : Char → Bool} {l : Str}
    (h : ∀ c ∈ l, p c = true) : l.dropWhile p = [] := by
  induction l with
  | nil => rfl
  | cons c t ih =>
    rw [List.dropWhile_cons, if_pos (h c (by simp))]
    exact ih (fun x hx => h x (by simp [hx]))

lemma takeWhile_append_cons {p : Char → Bool} {a : Str} {h : Char} (t : Str)
    (ha : ∀ c ∈ a, p c = true) (hh : p h = false) :
    (a ++ h :: t).takeWhile p = a := by
  induction a with
  | nil => simp [List.takeWhile_cons, hh]
  | cons c q ih =>
    rw [List.cons_append, List.takeWhile_cons, if_pos (ha c (by simp))]
    rw [ih (fun x hx => ha x (by simp [hx]))]

lemma dropWhile_append_cons {p : Char → Bool} {a : Str} {h : Char} (t : Str)
    (ha : ∀ c ∈ a, p c = true) (hh : p h = false) :
    (a ++ h :: t).dropWhile p = h :: t := by
  induction a with
  | nil => simp [List.dropWhile_cons, hh]
  | cons c q ih =>
    rw [List.cons_append, List.dropWhile_cons, if_pos (ha c (by simp))]
    exact ih (fun x hx => ha x (by simp [hx]))

lemma dropWhile_head_false {p : Char → Bool} {l : Str} {h : Char} {t : Str}
    (e : l.dropWhile p = h :: t) : p h = false := by
  induction l with
  | nil => cases e
  | cons c r ih =>
    by_cases hc : p c = true
    · rw [List.dropWhile_cons, if_pos hc] at e
      exact ih e
    · rw [List.dropWhile_cons, if_neg hc] at e
      injection e with e1 e2
      subst e1
      simpa using hc

lemma pyDirPart_append_pyName (p : Str) : pyDirPart p ++ pyName p = p := by
  unfold pyDirPart pyName
  rw [← List.reverse_append, List.takeWhile_append_dropWhile, List.reverse_reverse]

lemma pyName_no_slash (p : Str) : ∀ c ∈ pyName p, c ≠ '/' := by
  intro c hc
  unfold pyName at hc
  rw [List.mem_reverse] at hc
  have h := mem_takeWhile_pred hc
  simpa using h

lemma pyDirPart_cases (p : Str) : pyDirPart p = [] ∨ ∃ y, pyDirPart p = y ++ ['/'] := by
  unfold pyDirPart
  cases e : p.reverse.dropWhile (fun c => c != '/') with
  | nil => exact Or.inl rfl
  | cons h t =>
    have hh := dropWhile_head_false e
    have hh' : h = '/' := by simpa using hh
    subst hh'
    exact Or.inr ⟨t.reverse, by simp⟩

lemma pyName_of_concat (x q : Str) (hq : ∀ c ∈ q, c ≠ '/')
    (hx : x = [] ∨ ∃ y, x = y ++ ['/']) : pyName (x ++ q) = q := by
  have hq' : ∀ c ∈ q.reverse, (c != '/') = true := by
    intro c hc
    rw [List.mem_reverse] at hc
    simpa using hq c hc
  unfold pyName
  rw [List.reverse_append]
  rcases hx with rfl | ⟨y, rfl⟩
  · rw [List.reverse_nil, List.append_nil, takeWhile_all hq', List.reverse_reverse]
  · rw [List.reverse_append, show (['/'] : Str).reverse = ['/'] from rfl,
      List.singleton_append, takeWhile_append_cons _ hq' (by decide), List.reverse_reverse]

lemma pyDirPart_of_concat (x q : Str) (hq : ∀ c ∈ q, c ≠ '/')
    (hx : x = [] ∨ ∃ y, x = y ++ ['/']) : pyDirPart (x ++ q) = x := by
  have hq' : ∀ c ∈ q.reverse, (c != '/') = true := by
    intro c hc
    rw [List.mem_reverse] at hc
    simpa using hq c hc
  unfold pyDirPart
  rw [List.reverse_append]
  rcases hx with rfl | ⟨y, rfl⟩
  · rw [List.reverse_nil, List.append_nil, dropWhile_all hq', List.reverse_nil]
  · rw [List.reverse_append, show (['/'] : Str).reverse = ['/'] from rfl,
      List.singleton_append, dropWhile_append_cons _ hq' (by decide)]
    simp

lemma splitExtRev_append {a : Str} (b : Str) (h : ∀ c ∈ a, c ≠ '.') :
    splitExtRev (a ++ '.' :: b) = some (a, b) := by
  induction a with
  | nil => simp [splitExtRev]
  | cons c t ih =>
    have hc : ¬ c = '.' := h c (by simp)
    rw [List.cons_append]
    simp [splitExtRev, hc, ih (fun x hx => h x (by simp [hx]))]

lemma splitExtRev_sound {l a b : Str} (h : splitExtRev l = some (a, b)) :
    l = a ++ '.' :: b ∧ ∀ c ∈ a, c ≠ '.' := by
  induction l generalizing a with
  | nil => cases h
  | cons c t ih =>
    by_cases hc : c = '.'
    · subst hc
      rw [show splitExtRev ('.' :: t) = some ([], t) from by simp [splitExtRev]] at h
      injection h with h'
      injection h' with h1 h2
      subst h1
      subst h2
      exact ⟨rfl, by simp⟩
    · simp only [splitExtRev, if_neg hc, Option.map_eq_some'] at h
      obtain ⟨⟨a', b'⟩, ht, he⟩ := h
      simp only [Prod.mk.injEq] at he
      obtain ⟨he1, rfl⟩ := he
      obtain ⟨h1, h2⟩ := ih ht
      subst he1
      constructor
      · rw [h1, List.cons_append]
      · intro x hx
        rcases List.mem_cons.mp hx with rfl | hx'
        · exact hc
        · exact h2 x hx'

lemma pySplitName_decomp (x s r : Str) (hx : x = [] ∨ ∃ y, x = y ++ ['/'])
    (hs : s ≠ []) (hr : r ≠ []) (hrdot : ∀ c ∈ r, c ≠ '.')
    (hsl : ∀ c ∈ s ++ '.' :: r, c ≠ '/') :
    pySplitName (x ++ (s ++ '.' :: r)) = (s, '.' :: r) := by
  have hname : pyName (x ++ (s ++ '.' :: r)) = s ++ '.' :: r := pyName_of_concat _ _ hsl hx
  have hrev : (s ++ '.' :: r).reverse = r.reverse ++ '.' :: s.reverse := by
    rw [List.reverse_append, List.reverse_cons, List.append_assoc, List.singleton_append]
  have h1 : ¬ (s.reverse = [] ∨ r.reverse = []) := by
    rintro (h | h)
    · exact hs (by simpa using h)
    · exact hr (by simpa using h)
  unfold pySplitName
  rw [hname, hrev,
    splitExtRev_append _ (fun c hc => hrdot c (by rwa [List.mem_reverse] at hc))]
  simp [hs, hr]

lemma pySuffix_shape {p : Str} (h : pySuffix p ≠ []) :
    ∃ s r : Str, pyStem p = s ∧ pySuffix p = '.' :: r
      ∧ s ≠ [] ∧ r ≠ [] ∧ (∀ c ∈ r, c ≠ '.')
      ∧ pyName p = s ++ '.' :: r := by
  cases e : splitExtRev (pyName p).reverse with
  | none =>
    exfalso
    apply h
    unfold pySuffix pySplitName
    rw [e]
  | some ab =>
    obtain ⟨aR, bR⟩ := ab
    by_cases hempty : bR = [] ∨ aR = []
    · exfalso
      apply h
      unfold pySuffix pySplitName
      rw [e]
      simp [hempty]
    · push_neg at hempty
      obtain ⟨hb, ha⟩ := hempty
      have hsn : pySplitName p = (bR.reverse, '.' :: aR.reverse) := by
        unfold pySplitName
        rw [e]
        simp [hb, ha]
      obtain ⟨hl, hnd⟩ := splitExtRev_sound e
      refine ⟨bR.reverse, aR.reverse, ?_, ?_, by simpa, by simpa, ?_, ?_⟩
      · exact congrArg Prod.fst hsn
      · exact congrArg Prod.snd hsn
      · intro c hc
        exact hnd c (by rwa [List.mem_reverse] at hc)
      · have h2 := congrArg List.reverse hl
        rw [List.reverse_reverse] at h2
        rw [h2, List.reverse_append, List.reverse_cons, List.append_assoc,
          List.singleton_append]

lemma dotext_no_slash {r : Str} (hrsl : ∀ c ∈ r, c ≠ '/') : ¬ ('/' ∈ '.' :: r) := by
  intro hm
  rcases List.mem_cons.mp hm with h' | h'
  · exact absurd h' (by decide)
  · exact hrsl _ h' rfl

lemma dotext_valid {r : Str} (hr1 : r ≠ []) :
    ¬ ((('.' :: r) ≠ [] ∧ ('.' :: r).head? ≠ some '.') ∨ ('.' :: r) = ['.']) := by
  rintro (⟨-, hh⟩ | hh)
  · exact hh rfl
  · apply hr1
    simpa using hh

lemma pyWithSuffix_dotext (p : Str) (r : Str)
    (hrsl : ∀ c ∈ r, c ≠ '/') (hr1 : r ≠ []) (hname : pyName p ≠ []) :
    pyWithSuffix p ('.' :: r) =
      some (pyDirPart p ++ ((if pySuffix p = [] then pyName p else pyStem p) ++ ('.' :: r))) := by
  unfold pyWithSuffix
  rw [if_neg (dotext_no_slash hrsl), if_neg (dotext_valid hr1), if_neg hname]
  by_cases hps : pySuffix p = []
  · rw [if_pos hps, if_pos hps, List.append_assoc]
  · rw [if_neg hps, if_neg hps, List.append_assoc]

lemma pyWithSuffix_splits (p dst r : Str)
    (hr : r ≠ []) (hrdot : ∀ c ∈ r, c ≠ '.') (hrsl : ∀ c ∈ r, c ≠ '/')
    (h : pyWithSuffix p ('.' :: r) = some dst) :
    pySuffix dst = '.' :: r
      ∧ pyStem dst = (if pySuffix p = [] then pyName p else pyStem p) := by
  have hname : pyName p ≠ [] := by
    intro hn
    unfold pyWithSuffix at h
    rw [if_neg (dotext_no_slash hrsl), if_neg (dotext_valid hr), if_pos hn] at h
    cases h
  rw [pyWithSuffix_dotext p r hrsl hr hname] at h
  injection h with hdst
  subst hdst
  by_cases hps : pySuffix p = []
  · rw [if_pos hps]
    have hsl2 : ∀ c ∈ pyName p ++ '.' :: r, c ≠ '/' := by
      intro c hc
      rcases List.mem_append.mp hc with hc' | hc'
      · exact pyName_no_slash p c hc'
      · rcases List.mem_cons.mp hc' with rfl | hc''
        · decide
        · exact hrsl c hc''
    have hsplit := pySplitName_decomp (pyDirPart p) (pyName p) r
      (pyDirPart_cases p) hname hr hrdot hsl2
    exact ⟨congrArg Prod.snd hsplit, congrArg Prod.fst hsplit⟩
  · rw [if_neg hps]
    obtain ⟨s, r', hstem, hsfx, hs, hr', hrdot', hnm⟩ := pySuffix_shape hps
    have hstem_ne : pyStem p ≠ [] := by
      rw [hstem]
      exact hs
    have hsl2 : ∀ c ∈ pyStem p ++ '.' :: r, c ≠ '/' := by
      intro c hc
      rcases List.mem_append.mp hc with hc' | hc'
      · apply pyName_no_slash p
        rw [hnm]
        exact List.mem_append_left _ (hstem ▸ hc')
      · rcases List.mem_cons.mp hc' with rfl | hc''
        · decide
        · exact hrsl c hc''
    have hsplit := pySplitName_decomp (pyDirPart p) (pyStem p) r
      (pyDirPart_cases p) hstem_ne hr hrdot hsl2
    have hfst := congrArg Prod.fst hsplit
    have hsnd := congrArg Prod.snd hsplit
    exact ⟨hsnd, hfst⟩

/-- C3 counterexample: for a source file without an extension (suffix "")
and a base name carrying dots, the computed destination's extension does
not equal the source's extension, refuting the claim as universally
quantified over original movie extensions. -/
theorem c3_counterexample :
    pySuffix ("Movie".toList) = []
    ∧ pyWithSuffix ("A.B.C (1964)".toList) (pySuffix ("Movie".toList)) = some ("A.B".toList)
    ∧ pySuffix ("A.B".toList) ≠ pySuffix ("Movie".toList) := by
  refine ⟨by decide, by decide, by decide⟩

/-- C3 (amended): whenever the original movie extension is non-empty, the
computed movie destination's extension equals it, and every subtitle
destination computed from a subtitle with a non-empty extension shares the
movie destination's stem and keeps the subtitle's own extension. -/
theorem c3_destination_keeps_extension (src base dst : Str)
    (hsuf : pySuffix src ≠ [])
    (hdst : pyWithSuffix base (pySuffix src) = some dst) :
    pySuffix dst = pySuffix src
    ∧ ∀ sub sd : Str, pySuffix sub ≠ [] →
        pyWithSuffix dst (pySuffix sub) = some sd →
        pyStem sd = pyStem dst ∧ pySuffix sd = pySuffix sub := by
  obtain ⟨s, r, hstem, hsfx, hs, hr, hrdot, hname⟩ := pySuffix_shape hsuf
  have hrsl : ∀ c ∈ r, c ≠ '/' := by
    intro c hc
    apply pyName_no_slash src
    rw [hname]
    exact List.mem_append_right _ (by simp [hc])
  rw [hsfx] at hdst
  have h1 := pyWithSuffix_splits base dst r hr hrdot hrsl hdst
  refine ⟨by rw [hsfx]; exact h1.1, ?_⟩
  intro sub sd hs2 h2
  obtain ⟨s2, r2, hstem2, hsfx2, hs2', hr2, hrdot2, hname2⟩ := pySuffix_shape hs2
  have hrsl2 : ∀ c ∈ r2, c ≠ '/' := by
    intro c hc
    apply pyName_no_slash sub
    rw [hname2]
    exact List.mem_append_right _ (by simp [hc])
  rw [hsfx2] at h2
  have h3 := pyWithSuffix_splits dst sd r2 hr2 hrdot2 hrsl2 h2
  have hdd : pySuffix dst ≠ [] := by
    rw [h1.1]
    simp
  exact ⟨by rw [h3.2, if_neg hdd], by rw [hsfx2]; exact h3.1⟩

/-- Witness for C3 (amended): source movie.mkv, base name
"The Matrix (1999)", subtitle a.srt. -/
theorem c3_destination_keeps_extension_witness :
    pySuffix ("The Matrix (1999).mkv".toList) = pySuffix ("movie.mkv".toList)
    ∧ (pyStem ("The Matrix (1999).srt".toList) = pyStem ("The Matrix (1999).mkv".toList)
        ∧ pySuffix ("The Matrix (1999).srt".toList) = pySuffix ("a.srt".toList)) := by
  have h := c3_destination_keeps_extension ("movie.mkv".toList)
      ("The Matrix (1999)".toList) ("The Matrix (1999).mkv".toList) (by decide) (by decide)
  exact ⟨h.1, h.2 ("a.srt".toList) ("The Matrix (1999).srt".toList) (by decide) (by decide)⟩

/-- C10 counterexample: a base name with an interior dot that also ends
with a dot.  with_suffix finds no suffix to strip (a trailing dot does not
start one), so nothing is deleted; the result differs from truncation at
the last dot. -/
theorem c10_counterexample :
    ("A.B.".toList).get? 1 = some '.'
    ∧ pyWithSuffix ("A.B.".toList) (".mkv".toList) = some ("A.B..mkv".toList)
    ∧ ("A.B..mkv".toList) ≠ ("A.B".toList ++ ".mkv".toList) := by
  refine ⟨by decide, by decide, by decide⟩

/-- C10 (amended): when the separator-free base name decomposes as
a ++ "." ++ b with the shown dot interior (a and b non-empty) and last
(b dot-free, so the base does not end with a dot), with_suffix deletes
everything from that last dot onward and appends the new extension. -/
theorem c10_truncates_at_last_dot (a b r : Str)
    (ha : a ≠ []) (hb : b ≠ []) (hbdot : ∀ c ∈ b, c ≠ '.')
    (hsl : ∀ c ∈ a ++ '.' :: b, c ≠ '/')
    (hr : r ≠ []) (hrsl : ∀ c ∈ r, c ≠ '/') :
    pyWithSuffix (a ++ '.' :: b) ('.' :: r) = some (a ++ '.' :: r) := by
  have hsplit : pySplitName (a ++ '.' :: b) = (a, '.' :: b) := by
    have h := pySplitName_decomp [] a b (Or.inl rfl) ha hb hbdot hsl
    simpa using h
  have hname : pyName (a ++ '.' :: b) = a ++ '.' :: b := by
    have h := pyName_of_concat [] (a ++ '.' :: b) hsl (Or.inl rfl)
    simpa using h
  have hname' : pyName (a ++ '.' :: b) ≠ [] := by
    rw [hname]
    simp
  rw [pyWithSuffix_dotext _ r hrsl hr hname']
  have hsfx : pySuffix (a ++ '.' :: b) = '.' :: b := congrArg Prod.snd hsplit
  have hstem : pyStem (a ++ '.' :: b) = a := congrArg Prod.fst hsplit
  have hdir : pyDirPart (a ++ '.' :: b) = [] := by
    have h := pyDirPart_of_concat [] (a ++ '.' :: b) hsl (Or.inl rfl)
    simpa using h
  rw [hdir, hsfx, if_neg (by simp), hstem]
  simp

/-- Witness for C10 (amended) at the claim's own example: base name
"Dr. Strangelove (1964)" with extension ".mkv" is truncated at the dot
after "Dr". -/
theorem c10_truncates_at_last_dot_witness :
    pyWithSuffix ("Dr. Strangelove (1964)".toList) (".mkv".toList) = some ("Dr.mkv".toList) := by
  have h := c10_truncates_at_last_dot ("Dr".toList) (" Strangelove (1964)".toList)
      ("mkv".toList) (by decide) (by decide) (by decide) (by decide) (by decide) (by decide)
  exact h

/-- C6 counterexample: when d/Subs is a symlink back to d (so both list
the same file), find_subtitle_files returns two distinct paths that
resolve to the same absolute file; deduplication is by literal path only,
refuting the resolved-identity reading of the claim. -/
theorem c6_counterexample :
    find_subtitle_files fsC6 ("d/m.mp4".toList) [".srt".toList]
        = ["d/a.srt".toList, "d/Subs/a.srt".toList]
    ∧ ("d/a.srt".toList : Str) ≠ "d/Subs/a.srt".toList
    ∧ resolveC6 ("d/a.srt".toList) = resolveC6 ("d/Subs/a.srt".toList) := by
  refine ⟨by decide, by decide, by decide⟩

lemma addHits_inv : ∀ (hits : List Str) (acc : List Str × List Str),
    acc.2.Nodup → (∀ x ∈ acc.2, x ∈ acc.1) →
    (addHits hits acc).2.Nodup ∧ ∀ x ∈ (addHits hits acc).2, x ∈ (addHits hits acc).1 := by
  intro hits
  induction hits with
  | nil => exact fun acc h1 h2 => ⟨h1, h2⟩
  | cons h t ih =>
    intro acc h1 h2
    by_cases hc : h ∈ acc.1
    · simp only [addHits, if_pos hc]
      exact ih acc h1 h2
    · simp only [addHits, if_neg hc]
      apply ih
      · rw [List.nodup_append]
        refine ⟨h1, List.nodup_singleton h, ?_⟩
        intro x hx hx'
        rw [List.mem_singleton] at hx'
        subst hx'
        exact hc (h2 x hx)
      · intro x hx
        rcases List.mem_append.mp hx with hx' | hx'
        · exact List.mem_cons_of_mem _ (h2 x hx')
        · rw [List.mem_singleton] at hx'
          subst hx'
          exact List.mem_cons_self _ _

lemma addDirExts_inv (fs : DirFS) (d : Str) : ∀ (exts : List Str) (acc : List Str × List Str),
    acc.2.Nodup → (∀ x ∈ acc.2, x ∈ acc.1) →
    (addDirExts fs d exts acc).2.Nodup
      ∧ ∀ x ∈ (addDirExts fs d exts acc).2, x ∈ (addDirExts fs d exts acc).1 := by
  intro exts
  induction exts with
  | nil => exact fun acc h1 h2 => ⟨h1, h2⟩
  | cons ext t ih =>
    intro acc h1 h2
    simp only [addDirExts]
    have h := addHits_inv (globExt fs d ext) acc h1 h2
    exact ih _ h.1 h.2

lemma addDirs_inv (fs : DirFS) (exts : List Str) : ∀ (ds : List Str) (acc : List Str × List Str),
    acc.2.Nodup → (∀ x ∈ acc.2, x ∈ acc.1) →
    (addDirs fs exts ds acc).2.Nodup
      ∧ ∀ x ∈ (addDirs fs exts ds acc).2, x ∈ (addDirs fs exts ds acc).1 := by
  intro ds
  induction ds with
  | nil => exact fun acc h1 h2 => ⟨h1, h2⟩
  | cons d t ih =>
    intro acc h1 h2
    by_cases hd : (lookupDir fs d).isSome = true
    · simp only [addDirs, if_pos hd]
      have h := addDirExts_inv fs d exts acc h1 h2
      exact ih _ h.1 h.2
    · simp only [addDirs, if_neg hd]
      exact ih _ h1 h2

/-- C6 (amended): find_subtitle_files never returns the same literal path
string twice; distinct paths that resolve to the same file may however
both be returned, as the counterexample shows. -/
theorem c6_no_duplicate_paths (fs : DirFS) (movie_file : Str) (extensions : List Str) :
    (find_subtitle_files fs movie_file extensions).Nodup := by
  have h := addDirs_inv fs (normalizedExts extensions) (candidateDirs movie_file)
    ([], []) (by simp) (by simp)
  exact h.1

/-- C7 evaluation at the failing input: with configured extension ".srt",
a file named a.SRT in the movie's directory is not collected, although its
extension matches the configured one case-insensitively (the glob of
"*.srt" is case sensitive on POSIX even though the configured extension
set was lowercased). -/
theorem c7_case_difference_not_collected :
    find_subtitle_files fsC7 ("d/m.mkv".toList) [".srt".toList] = []
    ∧ strToLower (pySuffix ("d/a.SRT".toList)) = ".srt".toList := by
  refine ⟨by decide, by decide⟩

/-- C4: when the lookup returns no results for a file, its outcome
computes no destination, performs no filesystem operation, leaves the file
state unchanged, reports no results, and the loop continues with the next
file from the same state. -/
theorem c4_no_results_no_mutation (fmt : Template) (action : Str) (mf : Str)
    (subs : List Str) (fs : FS) (rest : List FileJob) :
    processMovieFile fmt action [] mf subs fs
      = ⟨fs, [], [Msg.searching (extract_title_and_year (pyName mf)).1
            (extract_title_and_year (pyName mf)).2, Msg.noResults],
          none, none, none, none, false⟩
    ∧ processAll fmt action (⟨mf, [], subs⟩ :: rest) fs
        = processMovieFile fmt action [] mf subs fs :: processAll fmt action rest fs := by
  exact ⟨rfl, rfl⟩

/-- C5: for every non-empty lookup result list, the first result is
selected, and the resolved release year is the parsed year when present,
else the first four characters of the selected result's release date when
present and non-empty, else the literal "unknown"; the resolved year flows
into the destination base name through the format template. -/
theorem c5_first_result_year_resolution (fmt : Template) (action : Str)
    (m : MovieResult) (ms : List MovieResult) (mf : Str) (subs : List Str) (fs : FS) :
    (processMovieFile fmt action (m :: ms) mf subs fs).selected = some m
    ∧ (processMovieFile fmt action (m :: ms) mf subs fs).resolvedYear
        = some (specResolveYear (extract_title_and_year (pyName mf)).2 m.release_date)
    ∧ (processMovieFile fmt action (m :: ms) mf subs fs).base
        = some (applyTemplate fmt m.title
            (specResolveYear (extract_title_and_year (pyName mf)).2 m.release_date)) := by
  have hyear : resolved_year_of (extract_title_and_year (pyName mf)).2 m
      = specResolveYear (extract_title_and_year (pyName mf)).2 m.release_date := by
    unfold resolved_year_of specResolveYear
    cases (extract_title_and_year (pyName mf)).2 with
    | some yr => rfl
    | none =>
      cases m.release_date with
      | none => rfl
      | some rd =>
        by_cases hrd : rd = []
        · simp [hrd]
        · simp [hrd]
  rcases hw : pyWithSuffix
      (applyTemplate fmt m.title (resolved_year_of (extract_title_and_year (pyName mf)).2 m))
      (pySuffix mf) with _ | dst
  · simp only [processMovieFile]
    rw [hw]
    simp [hyear]
  · simp only [processMovieFile]
    rw [hw]
    simp [hyear]

lemma testSubs_frame (d : Str) : ∀ (subs : List Str) (st : SubsState),
    (testSubs d subs st).fs = st.fs ∧ (testSubs d subs st).ops = st.ops := by
  intro subs
  induction subs with
  | nil => exact fun st => ⟨rfl, rfl⟩
  | cons sub rest ih =>
    intro st
    rcases hw : pyWithSuffix d (pySuffix sub) with _ | sd
    · simp only [testSubs, hw]
      exact ⟨trivial, trivial⟩
    · simp only [testSubs, hw]
      exact ih _

lemma placeFiles_other (action mf dst : Str) (subs : List Str) (fs : FS) (printed : List Msg)
    (h1 : action ≠ copyAction) (h2 : action ≠ moveAction) :
    (placeFiles action mf dst subs fs printed).fs = fs
    ∧ (placeFiles action mf dst subs fs printed).ops = [] := by
  unfold placeFiles
  rw [if_neg h1, if_neg h2]
  by_cases h3 : action = testAction
  · rw [if_pos h3]
    exact testSubs_frame dst subs _
  · rw [if_neg h3]
    exact ⟨rfl, rfl⟩

/-- C9: for every action value other than "copy" and "move" - "test"
included - processing a file leaves the file state unchanged and performs
no filesystem operation at all, regardless of what exists. -/
theorem c9_other_actions_no_mutation (fmt : Template) (action : Str)
    (movies : List MovieResult) (mf : Str) (subs : List Str) (fs : FS)
    (h1 : action ≠ copyAction) (h2 : action ≠ moveAction) :
    (processMovieFile fmt action movies mf subs fs).fs = fs
    ∧ (processMovieFile fmt action movies mf subs fs).ops = [] := by
  cases movies with
  | nil => exact ⟨rfl, rfl⟩
  | cons m ms =>
    rcases hw : pyWithSuffix
        (applyTemplate fmt m.title (resolved_year_of (extract_title_and_year (pyName mf)).2 m))
        (pySuffix mf) with _ | dst
    · simp [processMovieFile, hw]
    · simp only [processMovieFile, hw]
      exact placeFiles_other action mf dst subs fs _ h1 h2

/-- Witness for C9 with the action "test" on a concrete run. -/
theorem c9_other_actions_no_mutation_witness :
    (processMovieFile fmtW testAction moviesW ("m.mp4".toList) ["s.srt".toList] fsW).fs = fsW
    ∧ (processMovieFile fmtW testAction moviesW ("m.mp4".toList) ["s.srt".toList] fsW).ops = [] :=
  c9_other_actions_no_mutation fmtW testAction moviesW ("m.mp4".toList) ["s.srt".toList] fsW
    (by decide) (by decide)

lemma mem_addFile {fs : FS} {p q : Str} (h : p ∈ fs.files) : p ∈ (fs.addFile q).files := by
  simp only [FS.addFile]
  split
  · exact h
  · exact List.mem_append_left _ h

lemma mem_addFile_iff {fs : FS} {p q : Str} :
    p ∈ (fs.addFile q).files ↔ p ∈ fs.files ∨ p = q := by
  simp only [FS.addFile]
  split
  · rename_i hq
    constructor
    · exact Or.inl
    · rintro (h | rfl)
      · exact h
      · exact hq
  · simp [List.mem_append]

lemma mem_removeFile_iff {fs : FS} {p q : Str} :
    p ∈ (fs.removeFile q).files ↔ p ∈ fs.files ∧ p ≠ q := by
  simp [FS.removeFile, List.mem_filter]

lemma copySubs_keeps (d p : Str) : ∀ (subs : List Str) (st : SubsState),
    p ∈ st.fs.files → p ∈ (copySubs d subs st).fs.files := by
  intro subs
  induction subs with
  | nil => exact fun st h => h
  | cons sub rest ih =>
    intro st h
    rcases hw : pyWithSuffix d (pySuffix sub) with _ | sd
    · simp only [copySubs, hw]
      exact h
    · simp only [copySubs, hw]
      by_cases hm : sub ∈ st.fs.files
      · rw [if_pos hm]
        by_cases he : sub = sd
        · rw [if_pos he]
          exact h
        · rw [if_neg he]
          exact ih _ (mem_addFile h)
      · rw [if_neg hm]
        exact ih _ h

lemma moveSubs_keeps_out (d p : Str) : ∀ (subs : List Str) (st : SubsState),
    p ∉ st.fs.files →
    (∀ s ∈ subs, pyWithSuffix d (pySuffix s) ≠ some p) →
    p ∉ (moveSubs d subs st).fs.files := by
  intro subs
  induction subs with
  | nil => exact fun st h _ => h
  | cons sub rest ih =>
    intro st h hne
    rcases hw : pyWithSuffix d (pySuffix sub) with _ | sd
    · simp only [moveSubs, hw]
      exact h
    · simp only [moveSubs, hw]
      have hsd : sd ≠ p := by
        intro hsd'
        exact hne sub (by simp) (by rw [hw, hsd'])
      by_cases hm : sub ∈ st.fs.files
      · rw [if_pos hm]
        apply ih
        · by_cases he : sub = sd
          · rw [if_pos he]
            exact h
          · rw [if_neg he]
            intro hmem
            rcases mem_addFile_iff.mp hmem with h' | h'
            · exact h (mem_removeFile_iff.mp h').1
            · exact hsd h'.symm
        · intro s hs
          exact hne s (by simp [hs])
      · rw [if_neg hm]
        exact ih _ h (fun s hs => hne s (by simp [hs]))

/-- C8 counterexample: a source file already carrying its canonical name.
The move branch runs (a destination equal to the source is computed and
the source exists), yet the source still exists afterwards, because
os.rename of a path onto itself is a successful no-op. -/
theorem c8_move_to_self_counterexample :
    mfC8 ∈ fsC8.files
    ∧ (processMovieFile fmtW moveAction moviesW mfC8 [] fsC8).destination = some mfC8
    ∧ mfC8 ∈ (processMovieFile fmtW moveAction moviesW mfC8 [] fsC8).fs.files := by
  refine ⟨by decide, by decide, by decide⟩

/-- C8 (amended): when the movie source exists at placement time, a copy
run leaves it present afterwards; a move run leaves it absent provided
the computed destination differs from the source path and no subtitle
destination coincides with the source path (otherwise the path survives,
as the counterexample shows). -/
theorem c8_copy_keeps_source_move_removes_it (fmt : Template) (m : MovieResult)
    (ms : List MovieResult) (mf : Str) (subs : List Str) (fs : FS)
    (hsrc : mf ∈ fs.files) :
    mf ∈ (processMovieFile fmt copyAction (m :: ms) mf subs fs).fs.files
    ∧ ∀ dst : Str,
        (processMovieFile fmt moveAction (m :: ms) mf subs fs).destination = some dst →
        dst ≠ mf →
        (∀ s ∈ subs, pyWithSuffix dst (pySuffix s) ≠ some mf) →
        mf ∉ (processMovieFile fmt moveAction (m :: ms) mf subs fs).fs.files := by
  constructor
  · rcases hw : pyWithSuffix
        (applyTemplate fmt m.title (resolved_year_of (extract_title_and_year (pyName mf)).2 m))
        (pySuffix mf) with _ | dst
    · simp only [processMovieFile, hw]
      exact hsrc
    · simp only [processMovieFile, hw]
      unfold placeFiles
      rw [if_pos rfl, if_pos hsrc]
      by_cases he : mf = dst
      · rw [if_pos he]
        exact hsrc
      · rw [if_neg he]
        exact copySubs_keeps dst mf subs _ (mem_addFile hsrc)
  · intro dst hdst hne hsubs
    rcases hw : pyWithSuffix
        (applyTemplate fmt m.title (resolved_year_of (extract_title_and_year (pyName mf)).2 m))
        (pySuffix mf) with _ | dst'
    · simp [processMovieFile, hw] at hdst
    · simp only [processMovieFile, hw, Option.some.injEq] at hdst
      subst hdst
      simp only [processMovieFile, hw]
      unfold placeFiles
      rw [if_neg (by decide : moveAction ≠ copyAction), if_pos rfl, if_pos hsrc]
      apply moveSubs_keeps_out
      · rw [if_neg (Ne.symm hne)]
        intro hmem
        rcases mem_addFile_iff.mp hmem with h' | h'
        · exact (mem_removeFile_iff.mp h').2 rfl
        · exact hne h'.symm
      · exact hsubs

/-- Witness for C8 (amended): copying keeps Old.Name.1999.mp4 in place and
moving removes it, its destination being The Matrix (1999).mp4. -/
theorem c8_copy_keeps_source_move_removes_it_witness :
    mfW8 ∈ (processMovieFile fmtW copyAction moviesW mfW8 [] fsW8).fs.files
    ∧ mfW8 ∉ (processMovieFile fmtW moveAction moviesW mfW8 [] fsW8).fs.files := by
  have h := c8_copy_keeps_source_move_removes_it fmtW
    ⟨"The Matrix".toList, some ("1999-03-31".toList)⟩ [] mfW8 [] fsW8 (by decide)
  refine ⟨?_, ?_⟩
  · have h1 := h.1
    simpa [moviesW] using h1
  · have h2 := h.2 ("The Matrix (1999).mp4".toList) (by decide) (by decide)
      (fun s hs => absurd hs (by simp))
    simpa [moviesW] using h2

end MovieRename
